import Mathlib

/-!
Verification of the ONNX preprocessor/linear-regression pipeline notebook
(`src/onnx/combine_preprocessor.ipynb`).

The notebook builds a small ONNX graph by hand (the arithmetic-progression
"AP expander" preprocessor), exports a scikit-learn linear regression to the
same graph format, normalizes the preprocessor's opset version, merges the two
graphs with `onnx.compose.merge_models`, and checks the result with
onnxruntime.

The graph data model below is transcribed from the notebook's explicit
construction (`helper.make_node`, `helper.make_tensor_value_info`,
`helper.make_graph`).  The library operations the notebook delegates to
(`merge_models`, `version_converter.convert_version`, `onnx.save`/`onnx.load`,
builder validation) are not part of the repository's sources, so they are
modelled from the specification, as marked on each definition.  Numeric values
are modelled with exact rational arithmetic.
-/

namespace OnnxPipeline

/-- Tensor element types used by the notebook (`TensorProto.FLOAT`; a second
type is kept so that element-type mismatches are expressible). -/
inductive ElemType
  | float
  | int64
deriving DecidableEq, Repr

/-- A named, typed binding point, as produced by `helper.make_tensor_value_info`:
a name, an element type and a shape whose dimensions may be unknown (`None`). -/
structure ValueInfo where
  name : String
  etype : ElemType
  shape : List (Option Nat)
deriving DecidableEq, Repr

/-- One graph operation, as produced by `helper.make_node`: an operator kind,
ordered input and output slot names, and the operator-specific attributes the
notebook uses (a constant payload, a concatenation axis) plus the coefficient
and intercept attributes of the exported linear-regression operator. -/
structure Node where
  op : String
  inputs : List String
  outputs : List String
  constValue : List ℚ := []
  axis : Int := 0
  coefficients : List ℚ := []
  intercept : ℚ := 0
deriving DecidableEq, Repr

/-- A computational graph, as produced by `helper.make_graph` plus the
operator-set version tag attached at the model level. -/
structure Graph where
  name : String
  nodes : List Node
  inputs : List ValueInfo
  outputs : List ValueInfo
  opset : Nat
deriving DecidableEq, Repr

/-! ### Evaluation (the Executor collaborator)

The Executor runs a graph on a mapping from input names to concrete numeric
values.  Tensors of the shapes the notebook uses are 1-D, so values are lists
of rationals. -/

/-- An environment binding slot names to concrete values. -/
abbrev Env := List (String × List ℚ)

/-- Look a slot name up in an environment (first binding wins). -/
def lookupEnv : Env → String → Option (List ℚ)
  | [], _ => none
  | (k, v) :: e, n => if n = k then some v else lookupEnv e n

/-- Elementwise addition with singleton broadcasting, the ONNX `Add` semantics
restricted to the 1-D tensors this pipeline uses. -/
def addVals (xs ys : List ℚ) : Option (List ℚ) :=
  if xs.length = ys.length then some (List.zipWith (· + ·) xs ys)
  else
    match xs, ys with
    | [a], ys => some (ys.map (fun y => a + y))
    | xs, [b] => some (xs.map (fun x => x + b))
    | _, _ => none

/-- Dot product of two coefficient/value vectors. -/
def dot (xs ys : List ℚ) : ℚ := (List.zipWith (· * ·) xs ys).sum

/-- Apply a node's operator to the values of its input slots: `Constant`
(no inputs) emits its payload, `Add` adds two tensors, `Concat` (axis 0)
joins 1-D tensors, and `LinearRegressor` (the operator the sklearn exporter
emits) computes `dot(coefficients, x) + intercept`. -/
def applyOp (nd : Node) (vals : List (List ℚ)) : Option (List ℚ) :=
  match nd.op, vals with
  | "Constant", [] => some nd.constValue
  | "Add", [xs, ys] => addVals xs ys
  | "Concat", vss => if nd.axis = 0 then some vss.flatten else none
  | "LinearRegressor", [xs] =>
      if nd.coefficients.length = xs.length then
        some [dot nd.coefficients xs + nd.intercept]
      else none
  | _, _ => none

/-- The new bindings a node produces: look up its input slots in order, apply
its operator, and bind its single output slot to the result. -/
def nodeOutputVals (nd : Node) (e : Env) : Option Env := do
  let vals ← nd.inputs.mapM (lookupEnv e)
  let out ← applyOp nd vals
  match nd.outputs with
  | [o] => pure [(o, out)]
  | _ => none

/-- Evaluate one node, extending the environment with its output bindings. -/
def evalNode (nd : Node) (e : Env) : Option Env :=
  (nodeOutputVals nd e).map (fun bs => bs ++ e)

/-- Evaluate a node sequence in order. -/
def evalNodes : List Node → Env → Option Env
  | [], e => some e
  | nd :: rest, e => (evalNode nd e).bind (evalNodes rest)

/-- Run a graph on an input environment, reading back the declared outputs in
order (the Executor's contract: input name ↦ value in, output values out). -/
def evalGraph (g : Graph) (x : Env) : Option (List (List ℚ)) :=
  (evalNodes g.nodes x).bind (fun e => g.outputs.mapM fun vi => lookupEnv e vi.name)

/-! ### The notebook's AP-expander preprocessor graph -/

/-- `helper.make_tensor_value_info`. -/
def make_tensor_value_info (name : String) (etype : ElemType)
    (shape : List (Option Nat)) : ValueInfo :=
  ⟨name, etype, shape⟩

/-- `input_value`: the preprocessor's scalar input, shape `[1]`. -/
def input_value : ValueInfo := make_tensor_value_info "input" .float [some 1]

/-- `output_value`: the preprocessor's 4-vector output, shape `[4]`. -/
def output_value : ValueInfo := make_tensor_value_info "output" .float [some 4]

/-- The notebook's `nodes` list: three `Constant`s (1.0, 2.0, 3.0), three
`Add`s, and a `Concat` on axis 0 producing `[input, input+1, input+2, input+3]`. -/
def apExpanderNodes : List Node :=
  [ { op := "Constant", inputs := [], outputs := ["one"], constValue := [1] },
    { op := "Constant", inputs := [], outputs := ["two"], constValue := [2] },
    { op := "Constant", inputs := [], outputs := ["three"], constValue := [3] },
    { op := "Add", inputs := ["input", "one"], outputs := ["input_plus_1"] },
    { op := "Add", inputs := ["input", "two"], outputs := ["input_plus_2"] },
    { op := "Add", inputs := ["input", "three"], outputs := ["input_plus_3"] },
    { op := "Concat",
      inputs := ["input", "input_plus_1", "input_plus_2", "input_plus_3"],
      outputs := ["output"], axis := 0 } ]

/-- The notebook's `graph`/`model`: `helper.make_graph(nodes, "AP_Expander_Graph",
[input_value], [output_value])` wrapped by `helper.make_model` (the default
opset tag the helper assigns before the notebook converts it to 21). -/
def apExpanderGraph : Graph :=
  { name := "AP_Expander_Graph"
    nodes := apExpanderNodes
    inputs := [input_value]
    outputs := [output_value]
    opset := 19 }

/-! ### Graph Builder validation (spec-modelled) -/

/-- Errors of the Graph Builder and the Model Exporter. -/
inductive ValidationError
  | undefinedSlot
  | unproducedOutput
  | widthMismatch
deriving DecidableEq, Repr

/-- Output slot names of the `Constant` nodes of a node list. -/
def constantOutputs (nodes : List Node) : List String :=
  (nodes.filter fun nd => nd.op == "Constant").flatMap (·.outputs)

/-- Walk the node list in order, checking that every node's inputs are
currently defined and extending the defined set with its outputs. -/
def checkNodes : List Node → List String → Bool
  | [], _ => true
  | nd :: rest, defined =>
      nd.inputs.all defined.contains && checkNodes rest (defined ++ nd.outputs)

/-- Whether some node of the list produces slot `n`. -/
def producedBySome (nodes : List Node) (n : String) : Bool :=
  nodes.any fun nd => nd.outputs.contains n

/-- Modelled from the spec: the Graph Builder's validation (the notebook calls
the library's `helper.make_graph`, whose checking code is not part of this
repository).  Nodes are processed in declaration order against a growing set
of defined slot names seeded with the declared Inputs and the outputs of
`Constant` nodes; every declared Output must be produced by some node. -/
def make_graph (nodes : List Node) (name : String)
    (inputs outputs : List ValueInfo) (opset : Nat) : Except ValidationError Graph :=
  if checkNodes nodes (inputs.map (·.name) ++ constantOutputs nodes) then
    if outputs.all (fun o => producedBySome nodes o.name) then
      .ok ⟨name, nodes, inputs, outputs, opset⟩
    else .error .unproducedOutput
  else .error .undefinedSlot

/-! ### Model Exporter (spec-modelled) -/

/-- The graph the exporter produces: one `LinearRegressor` node computing
`dot(coefficients, float_input) + intercept`, with the notebook's input
signature `('float_input', FloatTensorType([None, k]))`. -/
def linearRegressorGraph (coeffs : List ℚ) (intercept : ℚ) (k : Nat)
    (opset : Nat) : Graph :=
  { name := "linear_regression"
    nodes := [{ op := "LinearRegressor", inputs := ["float_input"],
                outputs := ["variable"], coefficients := coeffs,
                intercept := intercept }]
    inputs := [make_tensor_value_info "float_input" .float [none, some k]]
    outputs := [make_tensor_value_info "variable" .float [none, some 1]]
    opset := opset }

/-- Modelled from the spec: the Model Exporter (the notebook calls the
library's `convert_sklearn`, which is not part of this repository).  Given a
trained model's coefficient vector and intercept and the declared input width
`k`, it produces the `LinearRegressor` graph; it fails with ValidationError
when the coefficient length does not match the declared width. -/
def convert_sklearn (coeffs : List ℚ) (intercept : ℚ) (k : Nat)
    (opset : Nat) : Except ValidationError Graph :=
  if coeffs.length = k then .ok (linearRegressorGraph coeffs intercept k opset)
  else .error .widthMismatch

/-- The notebook's exported linear-regression graph: width 4, with symbolic
coefficients and intercept standing for the trained values; its opset is the
one the exporter emits (21, matching the version the preprocessor is converted
to before merging). -/
def lrModelGraph (c : List ℚ) (b : ℚ) : Graph := linearRegressorGraph c b 4 21

/-! ### Version Normalizer (spec-modelled) -/

/-- Error of the Version Normalizer. -/
inductive UnsupportedVersionError
  | unsupported
deriving DecidableEq, Repr

/-- Whether an operator of the pipeline's vocabulary has a valid, unchanged
representation at the target operator-set version. -/
def opRepresentable (op : String) (target : Nat) : Bool :=
  1 ≤ target && ["Constant", "Add", "Concat", "LinearRegressor"].contains op

/-- Modelled from the spec: the Version Normalizer (the notebook calls the
library's `version_converter.convert_version`, which is not part of this
repository).  After confirming every node's operator is representable at the
target version it rewrites the version tag; otherwise it fails with
UnsupportedVersionError. -/
def convert_version (g : Graph) (target : Nat) : Except UnsupportedVersionError Graph :=
  if g.nodes.all (fun nd => opRepresentable nd.op target) then
    .ok { g with opset := target }
  else .error .unsupported

/-- The notebook's `preprocessor_opset21`: the AP expander retagged to opset 21. -/
def apExpander21 : Graph := { apExpanderGraph with opset := 21 }

/-! ### Graph Composer (spec-modelled) -/

/-- Errors of the Graph Composer. -/
inductive CompositionError
  | producerNotFound
  | consumerNotFound
  | typeShapeMismatch
  | versionMismatch
deriving DecidableEq, Repr

/-- Find the ValueInfo of a given name in a signature list. -/
def findValueInfo (l : List ValueInfo) (n : String) : Option ValueInfo :=
  l.find? fun vi => vi.name == n

/-- Two dimensions are compatible when both are concrete and equal, or either
is unknown (`None`). -/
def dimCompatible : Option Nat → Option Nat → Bool
  | some a, some b => a == b
  | _, _ => true

/-- Shapes are compatible when, aligned from the right, every pair of
dimensions is compatible (extra leading dimensions are unconstrained).  The
notebook successfully merges a `[4]` output into a `[None, 4]` input, so
compatibility rather than exact equality is what the composition enforces. -/
def shapeCompatible (s1 s2 : List (Option Nat)) : Bool :=
  (List.zip s1.reverse s2.reverse).all fun p => dimCompatible p.1 p.2

/-- The element-type and shape check for one mapped producer/consumer pair. -/
def pairCompatible (g1 g2 : Graph) (pc : String × String) : Bool :=
  match findValueInfo g1.outputs pc.1, findValueInfo g2.inputs pc.2 with
  | some a, some b => a.etype == b.etype && shapeCompatible a.shape b.shape
  | _, _ => false

/-- Rewrite a consumer slot name to the producer slot name it is wired to;
names that are not mapped consumers are unchanged. -/
def rewriteName (io_map : List (String × String)) (n : String) : String :=
  match io_map.find? (fun pc => pc.2 == n) with
  | some pc => pc.1
  | none => n

/-- Rewrite a downstream node's input slots through the mapping (outputs are
untouched). -/
def rewriteNode (io_map : List (String × String)) (nd : Node) : Node :=
  { nd with inputs := nd.inputs.map (rewriteName io_map) }

/-- Modelled from the spec: the Graph Composer (the notebook calls the
library's `onnx.compose.merge_models`, which is not part of this repository).
Preconditions, each violation raising CompositionError: (a) every mapped
producer is a declared upstream Output; (b) every mapped consumer is a
declared downstream Input; (c) each mapped pair's element types are equal and
shapes compatible; (d) the two graphs carry the same operator-set version.
On success the downstream nodes' mapped inputs are rewired to the upstream
producers, upstream nodes precede downstream nodes with internal order
preserved, the Inputs are the upstream's and the Outputs the downstream's.
The two graphs' slot names are assumed disjoint (as in the notebook), so no
renaming is performed. -/
def merge_models (g1 g2 : Graph) (io_map : List (String × String)) :
    Except CompositionError Graph :=
  if io_map.all fun pc => (findValueInfo g1.outputs pc.1).isSome then
    if io_map.all fun pc => (findValueInfo g2.inputs pc.2).isSome then
      if io_map.all (pairCompatible g1 g2) then
        if g1.opset = g2.opset then
          .ok { name := g1.name ++ "_" ++ g2.name
                nodes := g1.nodes ++ g2.nodes.map (rewriteNode io_map)
                inputs := g1.inputs
                outputs := g2.outputs
                opset := g1.opset }
        else .error .versionMismatch
      else .error .typeShapeMismatch
    else .error .consumerNotFound
  else .error .producerNotFound

/-- The notebook's io_map: the preprocessor's `output` feeds the regression's
`float_input`. -/
def notebookIoMap : List (String × String) := [("output", "float_input")]

/-- The notebook's `combined_model` for symbolic trained parameters. -/
def combinedGraph (c : List ℚ) (b : ℚ) : Graph :=
  { name := "AP_Expander_Graph_linear_regression"
    nodes := apExpanderNodes ++
      [{ op := "LinearRegressor", inputs := ["output"], outputs := ["variable"],
         coefficients := c, intercept := b }]
    inputs := [input_value]
    outputs := [make_tensor_value_info "variable" .float [none, some 1]]
    opset := 21 }

/-- The spec's well-formedness invariant: every value slot consumed by a Node
is produced by an earlier Node in the sequence, a declared Input, or a literal
Constant; and every declared Output is produced by some Node. -/
def WellFormed (g : Graph) : Prop :=
  (∀ pre nd post, g.nodes = pre ++ nd :: post →
      ∀ i ∈ nd.inputs,
        i ∈ g.inputs.map (·.name) ++ constantOutputs g.nodes ++ pre.flatMap (·.outputs)) ∧
  (∀ o ∈ g.outputs, ∃ nd ∈ g.nodes, o.name ∈ nd.outputs)

/-- All slot names a graph mentions: declared inputs and outputs and every
node's input and output slots. -/
def slotNames (g : Graph) : List String :=
  g.inputs.map (·.name) ++ g.outputs.map (·.name) ++
    g.nodes.flatMap fun nd => nd.inputs ++ nd.outputs

/-- Feed a produced environment through the mapping: the input environment the
downstream graph receives, binding each mapped consumer to its producer's
value. -/
def pipeEnv (io_map : List (String × String)) (e : Env) : Option Env :=
  io_map.mapM fun pc => (lookupEnv e pc.1).map fun v => (pc.2, v)

/-! ### Persistence (spec-modelled)

Modelled from the spec: the persisted graph format (`onnx.save` / `onnx.load`
in the notebook serialize through a byte stream; the serializer is not part of
this repository).  A graph is flattened to a stream of natural-number tokens
with length-prefixed lists: the fields are the operator-set version, the
Nodes, the declared Inputs and the declared Outputs, exactly the spec's
persisted structure. -/

def encNat (n : Nat) : List Nat := [n]

def encInt : Int → List Nat
  | .ofNat n => [0, n]
  | .negSucc n => [1, n]

def encRat (q : ℚ) : List Nat := encInt q.num ++ [q.den]

def encChar (c : Char) : List Nat := [c.toNat]

def encListWith {α : Type} (f : α → List Nat) (l : List α) : List Nat :=
  l.length :: (l.map f).flatten

def encString (s : String) : List Nat := encListWith encChar s.data

def encOptNat : Option Nat → List Nat
  | none => [0]
  | some n => [1, n]

def encElemType : ElemType → List Nat
  | .float => [0]
  | .int64 => [1]

def encValueInfo (vi : ValueInfo) : List Nat :=
  encString vi.name ++ encElemType vi.etype ++ encListWith encOptNat vi.shape

def encNode (nd : Node) : List Nat :=
  encString nd.op ++ encListWith encString nd.inputs ++
    encListWith encString nd.outputs ++ encListWith encRat nd.constValue ++
    encInt nd.axis ++ encListWith encRat nd.coefficients ++ encRat nd.intercept

def encGraph (g : Graph) : List Nat :=
  encString g.name ++ encListWith encNode g.nodes ++
    encListWith encValueInfo g.inputs ++ encListWith encValueInfo g.outputs ++
    encNat g.opset

/-- Persist a graph (`onnx.save`). -/
def onnx_save (g : Graph) : List Nat := encGraph g

def decNat : List Nat → Option (Nat × List Nat)
  | [] => none
  | n :: r => some (n, r)

def decInt : List Nat → Option (Int × List Nat)
  | 0 :: n :: r => some (.ofNat n, r)
  | 1 :: n :: r => some (.negSucc n, r)
  | _ => none

def decRat (l : List Nat) : Option (ℚ × List Nat) := do
  let (i, r) ← decInt l
  let (d, r2) ← decNat r
  pure ((i : ℚ) / (d : ℚ), r2)

def decChar : List Nat → Option (Char × List Nat)
  | [] => none
  | c :: r => some (Char.ofNat c, r)

def decListCount {α : Type} (f : List Nat → Option (α × List Nat)) :
    Nat → List Nat → Option (List α × List Nat)
  | 0, l => some ([], l)
  | n + 1, l => do
      let (a, r) ← f l
      let (as, r2) ← decListCount f n r
      pure (a :: as, r2)

def decListWith {α : Type} (f : List Nat → Option (α × List Nat))
    (l : List Nat) : Option (List α × List Nat) := do
  let (n, r) ← decNat l
  decListCount f n r

def decString (l : List Nat) : Option (String × List Nat) :=
  (decListWith decChar l).map fun p => (String.mk p.1, p.2)

def decOptNat : List Nat → Option (Option Nat × List Nat)
  | 0 :: r => some (none, r)
  | 1 :: n :: r => some (some n, r)
  | _ => none

def decElemType : List Nat → Option (ElemType × List Nat)
  | 0 :: r => some (.float, r)
  | 1 :: r => some (.int64, r)
  | _ => none

def decValueInfo (l : List Nat) : Option (ValueInfo × List Nat) := do
  let (nm, r1) ← decString l
  let (et, r2) ← decElemType r1
  let (sh, r3) ← decListWith decOptNat r2
  pure (⟨nm, et, sh⟩, r3)

def decNode (l : List Nat) : Option (Node × List Nat) := do
  let (op, r1) ← decString l
  let (ins, r2) ← decListWith decString r1
  let (outs, r3) ← decListWith decString r2
  let (cv, r4) ← decListWith decRat r3
  let (ax, r5) ← decInt r4
  let (cf, r6) ← decListWith decRat r5
  let (ic, r7) ← decRat r6
  pure (⟨op, ins, outs, cv, ax, cf, ic⟩, r7)

def decGraph (l : List Nat) : Option (Graph × List Nat) := do
  let (nm, r1) ← decString l
  let (nds, r2) ← decListWith decNode r1
  let (ins, r3) ← decListWith decValueInfo r2
  let (outs, r4) ← decListWith decValueInfo r3
  let (os, r5) ← decNat r4
  pure (⟨nm, nds, ins, outs, os⟩, r5)

/-- Load a persisted graph (`onnx.load`): the whole stream must decode to one
graph. -/
def onnx_load (l : List Nat) : Option Graph :=
  match decGraph l with
  | some (g, []) => some g
  | _ => none

/-- Evaluating the AP expander on a scalar `v` yields `[v, v+1, v+2, v+3]`. -/
theorem apExpander_eval (v : ℚ) :
    evalGraph apExpanderGraph [("input", [v])] = some [[v, v + 1, v + 2, v + 3]] := by
  simp [evalGraph, apExpanderGraph, apExpanderNodes, evalNodes, evalNode,
    nodeOutputVals, applyOp, lookupEnv, addVals, output_value,
    make_tensor_value_info, List.mapM, List.mapM.loop, Option.bind]

/-- C1: for every (rational-modelled) input `v`, the 4-element
arithmetic-progression preprocessor graph evaluates to `[v, v+1, v+2, v+3]`;
in particular input 2.0 yields `[2.0, 3.0, 4.0, 5.0]`. -/
theorem c1_apExpander_correct :
    (∀ v : ℚ, evalGraph apExpanderGraph [("input", [v])] =
      some [[v, v + 1, v + 2, v + 3]]) ∧
    evalGraph apExpanderGraph [("input", [2])] = some [[2, 3, 4, 5]] := by
  refine ⟨fun v => apExpander_eval v, ?_⟩
  have h := apExpander_eval 2
  norm_num at h
  exact h

/-- The notebook's merge call: composing the opset-21 preprocessor with the
exported regression under `io_map=[("output","float_input")]` succeeds and
yields the combined graph. -/
theorem merge_models_notebook (c : List ℚ) (b : ℚ) :
    merge_models apExpander21 (lrModelGraph c b) notebookIoMap = .ok (combinedGraph c b) := rfl

/-- Evaluating the combined graph at `v` applies the regression to the
expanded progression. -/
theorem combined_eval (c0 c1 c2 c3 b v : ℚ) :
    evalGraph (combinedGraph [c0, c1, c2, c3] b) [("input", [v])] =
      some [[c0 * v + c1 * (v + 1) + c2 * (v + 2) + c3 * (v + 3) + b]] := by
  simp [evalGraph, combinedGraph, apExpanderNodes, evalNodes, evalNode,
    nodeOutputVals, applyOp, lookupEnv, addVals, make_tensor_value_info, dot,
    List.mapM, List.mapM.loop, Option.bind]
  ring

/-- C3: composing the 4-element expander (upstream) with the exported linear
model of coefficients `[c0,c1,c2,c3]` and intercept `b` (downstream) and
evaluating at `v` yields `c0*v + c1*(v+1) + c2*(v+2) + c3*(v+3) + b`. -/
theorem c3_combined_eval (c0 c1 c2 c3 b v : ℚ) (gc : Graph)
    (h : merge_models apExpander21 (lrModelGraph [c0, c1, c2, c3] b) notebookIoMap = .ok gc) :
    evalGraph gc [("input", [v])] =
      some [[c0 * v + c1 * (v + 1) + c2 * (v + 2) + c3 * (v + 3) + b]] := by
  rw [merge_models_notebook] at h
  cases h
  exact combined_eval c0 c1 c2 c3 b v

/-- C3 witness: the composed pipeline with coefficients `[1,2,3,4]`,
intercept 5, evaluated at 2. -/
theorem c3_witness :
    evalGraph (combinedGraph [1, 2, 3, 4] 5) [("input", [2])] =
      some [[1 * 2 + 2 * (2 + 1) + 3 * (2 + 2) + 4 * (2 + 3) + 5]] :=
  c3_combined_eval 1 2 3 4 5 2 _ rfl

/-- C10: the composition the program performs succeeds although the mapped
slots' declared shapes differ in rank — the preprocessor's mapped output is
declared with shape `[4]` while the regression's mapped input is declared with
shape `[None, 4]`. -/
theorem c10_rank_mismatch_merge_succeeds :
    (findValueInfo apExpander21.outputs "output").map (·.shape) = some [some 4] ∧
    (∀ c b, (findValueInfo (lrModelGraph c b).inputs "float_input").map (·.shape) =
      some [none, some 4]) ∧
    (∀ c b, merge_models apExpander21 (lrModelGraph c b) notebookIoMap =
      .ok (combinedGraph c b)) :=
  ⟨rfl, fun _ _ => rfl, fun _ _ => rfl⟩

/-- C5 counterexample: a mapped producer/consumer pair whose declared shapes
are not exactly equal (`[4]` vs `[None, 4]`) on which composition nevertheless
succeeds — so "fails whenever the shapes do not match exactly" is false. -/
theorem c5_counterexample :
    (findValueInfo apExpander21.outputs "output").map (·.shape) ≠
      (findValueInfo (lrModelGraph [1, 1, 1, 1] 0).inputs "float_input").map (·.shape) ∧
    (merge_models apExpander21 (lrModelGraph [1, 1, 1, 1] 0) notebookIoMap).isOk = true :=
  ⟨by decide, rfl⟩

/-- C5 (amended): composition fails with a CompositionError whenever some
mapped pair resolves to slots whose element types differ or whose shapes are
incompatible — a concrete dimension conflicting after right alignment, in
particular a differing width; dimensions declared unknown act as wildcards. -/
theorem c5_amended_mismatch_fails (g1 g2 : Graph) (io_map : List (String × String))
    (pc : String × String) (hmem : pc ∈ io_map) (a b : ValueInfo)
    (ha : findValueInfo g1.outputs pc.1 = some a)
    (hb : findValueInfo g2.inputs pc.2 = some b)
    (hbad : ¬(a.etype = b.etype ∧ shapeCompatible a.shape b.shape = true)) :
    (merge_models g1 g2 io_map).isOk = false := by
  have hp : pairCompatible g1 g2 pc = false := by
    simp only [pairCompatible, ha, hb, Bool.and_eq_false_iff]
    rcases Decidable.em (a.etype = b.etype) with he | he
    · right
      rcases Decidable.em (shapeCompatible a.shape b.shape = true) with hs | hs
      · exact absurd ⟨he, hs⟩ hbad
      · simpa using hs
    · left
      simpa using he
  have hall : io_map.all (pairCompatible g1 g2) = false := by
    rw [List.all_eq_false]
    exact ⟨pc, hmem, by simp [hp]⟩
  unfold merge_models
  split
  · split
    · rw [hall]
      rfl
    · rfl
  · rfl

/-- C5 witness: wiring the width-4 preprocessor output into a width-3
regression input fails. -/
theorem c5_witness :
    (merge_models apExpander21 (linearRegressorGraph [1, 1, 1] 0 3 21) notebookIoMap).isOk = false :=
  c5_amended_mismatch_fails apExpander21 (linearRegressorGraph [1, 1, 1] 0 3 21)
    notebookIoMap ("output", "float_input") (by decide)
    ⟨"output", .float, [some 4]⟩ ⟨"float_input", .float, [none, some 3]⟩ rfl rfl (by decide)

/-- C7: the Version Normalizer is idempotent — after a successful
normalization to the target version, normalizing the result to the same
target returns it unchanged. -/
theorem c7_convert_version_idempotent (g : Graph) (target : Nat) (g' : Graph)
    (h : convert_version g target = .ok g') :
    convert_version g' target = .ok g' := by
  unfold convert_version at h ⊢
  by_cases hc : g.nodes.all (fun nd => opRepresentable nd.op target) = true
  · rw [if_pos hc] at h
    injection h with h
    subst h
    rw [if_pos hc]
  · rw [if_neg hc] at h
    exact absurd h (by simp)

/-- C7 witness: re-normalizing the opset-21 preprocessor to 21 returns it
unchanged. -/
theorem c7_witness : convert_version apExpander21 21 = .ok apExpander21 :=
  c7_convert_version_idempotent apExpanderGraph 21 apExpander21 rfl

/-- The order-checking walk validates every decomposition: if the walk
succeeds, each node's inputs lie in the seeded set extended by the outputs of
the preceding nodes. -/
theorem checkNodes_append_cons (pre : List Node) (nd : Node) (post : List Node)
    (defined : List String)
    (h : checkNodes (pre ++ nd :: post) defined = true) :
    nd.inputs.all (defined ++ pre.flatMap (·.outputs)).contains = true := by
  induction pre generalizing defined with
  | nil =>
      simp only [List.nil_append, checkNodes, Bool.and_eq_true] at h
      simpa using h.1
  | cons p ps ih =>
      simp only [List.cons_append, checkNodes, Bool.and_eq_true] at h
      have := ih (defined ++ p.outputs) h.2
      simpa [List.append_assoc] using this

/-- C6: the Graph Builder fails with ValidationError when some declared
Output name never appears as the output of any Node, and fails with
ValidationError (undefined slot) when some Node references a slot name not
defined by an earlier Node, a declared Input, or a Constant. -/
theorem c6_builder_validation (nodes : List Node) (name : String)
    (inputs outputs : List ValueInfo) (opset : Nat) :
    ((∃ o ∈ outputs, ∀ nd ∈ nodes, o.name ∉ nd.outputs) →
      (make_graph nodes name inputs outputs opset).isOk = false) ∧
    ((∃ pre nd post, nodes = pre ++ nd :: post ∧ ∃ i ∈ nd.inputs,
        i ∉ inputs.map (·.name) ++ constantOutputs nodes ++ pre.flatMap (·.outputs)) →
      make_graph nodes name inputs outputs opset = .error .undefinedSlot) := by
  constructor
  · rintro ⟨o, ho, hnp⟩
    have hfail : outputs.all (fun o => producedBySome nodes o.name) = false := by
      rw [List.all_eq_false]
      refine ⟨o, ho, ?_⟩
      intro hany
      simp only [producedBySome, List.any_eq_true] at hany
      obtain ⟨nd, hnd, hc⟩ := hany
      simp only [List.contains_iff_exists_mem_beq, beq_iff_eq] at hc
      obtain ⟨a, ha, rfl⟩ := hc
      exact hnp nd hnd ha
    unfold make_graph
    split
    · rw [hfail]
      rfl
    · rfl
  · rintro ⟨pre, nd, post, rfl, i, hi, hnot⟩
    have hfail : checkNodes (pre ++ nd :: post)
        (inputs.map (·.name) ++ constantOutputs (pre ++ nd :: post)) = false := by
      by_contra hck
      rw [Bool.not_eq_false] at hck
      have := checkNodes_append_cons pre nd post _ hck
      rw [List.all_eq_true] at this
      have hmem := this i hi
      simp only [List.contains_iff_exists_mem_beq, beq_iff_eq] at hmem
      obtain ⟨a, ha, rfl⟩ := hmem
      have hmem := ha
      exact hnot (by simpa [List.append_assoc] using hmem)
    unfold make_graph
    rw [hfail]
    rfl

/-- C6 witness: a lone `Add` node reading undefined slots, with an
unproduced declared output. -/
theorem c6_witness :
    (make_graph [{ op := "Add", inputs := ["x", "y"], outputs := ["z"] }] "g" []
        [⟨"w", .float, [some 1]⟩] 19).isOk = false ∧
    make_graph [{ op := "Add", inputs := ["x", "y"], outputs := ["z"] }] "g" []
        [⟨"w", .float, [some 1]⟩] 19 = .error .undefinedSlot :=
  ⟨(c6_builder_validation _ "g" [] _ 19).1 ⟨⟨"w", .float, [some 1]⟩, by decide, by decide⟩,
   (c6_builder_validation _ "g" [] _ 19).2
     ⟨[], { op := "Add", inputs := ["x", "y"], outputs := ["z"] }, [], rfl, "x", by decide, by decide⟩⟩

/-- A graph passing the builder's two boolean checks is well-formed. -/
theorem wellFormed_of_checks (g : Graph)
    (h1 : checkNodes g.nodes (g.inputs.map (·.name) ++ constantOutputs g.nodes) = true)
    (h2 : g.outputs.all (fun o => producedBySome g.nodes o.name) = true) :
    WellFormed g := by
  constructor
  · intro pre nd post hdec i hi
    rw [hdec] at h1 ⊢
    have := checkNodes_append_cons pre nd post _ h1
    rw [List.all_eq_true] at this
    have hmem := this i hi
    simp only [List.contains_iff_exists_mem_beq, beq_iff_eq] at hmem
    obtain ⟨a, ha, rfl⟩ := hmem
    simpa [List.append_assoc] using ha
  · intro o ho
    rw [List.all_eq_true] at h2
    have hp := h2 o ho
    simp only [producedBySome, List.any_eq_true] at hp
    obtain ⟨nd, hnd, hc⟩ := hp
    refine ⟨nd, hnd, ?_⟩
    simp only [List.contains_iff_exists_mem_beq, beq_iff_eq] at hc
    obtain ⟨a, ha, rfl⟩ := hc
    exact ha

/-- A decomposition of an appended list around one element lies in the left
or the right part. -/
theorem append_cons_cases {α : Type} {l1 l2 pre post : List α} {a : α}
    (h : l1 ++ l2 = pre ++ a :: post) :
    (∃ post1, l1 = pre ++ a :: post1 ∧ post = post1 ++ l2) ∨
    (∃ pre2, l2 = pre2 ++ a :: post ∧ pre = l1 ++ pre2) := by
  rcases List.append_eq_append_iff.mp h with ⟨a', hpre, hl2⟩ | ⟨c', hl1, hcons⟩
  · exact Or.inr ⟨a', hl2, hpre⟩
  · cases c' with
    | nil =>
        simp only [List.append_nil] at hl1
        exact Or.inr ⟨[], by simpa using hcons.symm, by simp [hl1]⟩
    | cons b bs =>
        have hb : a = b ∧ post = bs ++ l2 := by
          have := hcons
          simp only [List.cons_append] at this
          exact ⟨by injection this, by injection this⟩
        obtain ⟨rfl, hpost⟩ := hb
        exact Or.inl ⟨bs, by rw [hl1], hpost⟩

/-- A decomposition of a mapped list pulls back to a decomposition of the
original. -/
theorem map_eq_append_cons {α β : Type} {f : α → β} {l : List α} {pre : List β}
    {b : β} {post : List β} (h : l.map f = pre ++ b :: post) :
    ∃ pre' a post', l = pre' ++ a :: post' ∧ pre = pre'.map f ∧ b = f a ∧
      post = post'.map f := by
  induction l generalizing pre with
  | nil => simp at h
  | cons x xs ih =>
      cases pre with
      | nil =>
          simp only [List.map_cons, List.nil_append, List.cons.injEq] at h
          exact ⟨[], x, xs, rfl, rfl, h.1.symm, h.2.symm⟩
      | cons p ps =>
          simp only [List.map_cons, List.cons_append, List.cons.injEq] at h
          obtain ⟨rfl, h2⟩ := h
          obtain ⟨pre', a, post', rfl, rfl, rfl, rfl⟩ := ih h2
          exact ⟨x :: pre', a, post', rfl, rfl, rfl, rfl⟩

/-- Constant outputs distribute over node-list append. -/
theorem constantOutputs_append (l1 l2 : List Node) :
    constantOutputs (l1 ++ l2) = constantOutputs l1 ++ constantOutputs l2 := by
  simp [constantOutputs, List.filter_append]

/-- Rewiring node inputs leaves Constant outputs unchanged. -/
theorem constantOutputs_map_rewrite (m : List (String × String)) (l : List Node) :
    constantOutputs (l.map (rewriteNode m)) = constantOutputs l := by
  induction l with
  | nil => rfl
  | cons nd rest ih =>
      simp only [constantOutputs, List.map_cons, List.filter_cons] at *
      by_cases hop : (nd.op == "Constant") = true
      · simp only [rewriteNode, hop, if_pos] at *
        simp [ih]
      · simp only [rewriteNode] at *
        simp only [Bool.not_eq_true] at hop
        simp [hop, ih]

/-- Rewiring node inputs leaves produced slots unchanged. -/
theorem flatMap_outputs_map_rewrite (m : List (String × String)) (l : List Node) :
    (l.map (rewriteNode m)).flatMap (·.outputs) = l.flatMap (·.outputs) := by
  induction l with
  | nil => rfl
  | cons nd rest ih => simp [rewriteNode, ih]

/-- A name that is no mapped consumer is not rewritten. -/
theorem rewriteName_not_consumer (m : List (String × String)) (n : String)
    (h : ∀ pc ∈ m, pc.2 ≠ n) : rewriteName m n = n := by
  unfold rewriteName
  have : m.find? (fun pc => pc.2 == n) = none := by
    rw [List.find?_eq_none]
    intro pc hpc
    simpa using h pc hpc
  rw [this]

/-- A mapped consumer name is rewritten to the producer of some mapping pair
for that consumer. -/
theorem rewriteName_consumer_mem (m : List (String × String)) (n : String)
    (pc : String × String) (hpc : pc ∈ m) (hn : pc.2 = n) :
    ∃ pc' ∈ m, pc'.2 = n ∧ rewriteName m n = pc'.1 := by
  unfold rewriteName
  cases hf : m.find? (fun pc => pc.2 == n) with
  | none =>
      rw [List.find?_eq_none] at hf
      exact absurd (by simpa using hn) (by simpa using hf pc hpc)
  | some pc' =>
      refine ⟨pc', List.mem_of_find?_eq_some hf, ?_, rfl⟩
      have := List.find?_some hf
      simpa using this

/-- A successful signature lookup pins a member with the requested name. -/
theorem findValueInfo_isSome (l : List ValueInfo) (n : String)
    (h : (findValueInfo l n).isSome = true) : ∃ vi ∈ l, vi.name = n := by
  unfold findValueInfo at h
  cases hf : l.find? (fun vi => vi.name == n) with
  | none => rw [hf] at h; simp at h
  | some vi =>
      refine ⟨vi, List.mem_of_find?_eq_some hf, ?_⟩
      have := List.find?_some hf
      simpa using this

/-- A Constant-output name is the output of some node of the list. -/
theorem constantOutputs_mem (nds : List Node) (i : String)
    (h : i ∈ constantOutputs nds) : ∃ nd ∈ nds, i ∈ nd.outputs := by
  unfold constantOutputs at h
  rw [List.mem_flatMap] at h
  obtain ⟨nd, hnd, hi⟩ := h
  exact ⟨nd, List.mem_of_mem_filter hnd, hi⟩


/-- C8: every Graph produced by the Graph Builder, the Model Exporter, the
Version Normalizer, or the Graph Composer satisfies the well-formedness
invariant, and in a composed graph the upstream nodes precede the rewired
downstream nodes with each source graph's internal order preserved (for the
composer: given well-formed inputs whose downstream declared inputs are all
mapped and whose downstream node outputs collide with no mapped consumer). -/
theorem c8_producers_wellformed :
    (∀ nodes name inputs outputs opset g,
        make_graph nodes name inputs outputs opset = .ok g → WellFormed g) ∧
    (∀ coeffs intercept k opset g,
        convert_sklearn coeffs intercept k opset = .ok g → WellFormed g) ∧
    (∀ g target g', convert_version g target = .ok g' → WellFormed g → WellFormed g') ∧
    (∀ g1 g2 io_map gc, merge_models g1 g2 io_map = .ok gc →
        WellFormed g1 → WellFormed g2 →
        (∀ vi ∈ g2.inputs, ∃ pc ∈ io_map, pc.2 = vi.name) →
        (∀ nd ∈ g2.nodes, ∀ o ∈ nd.outputs, ∀ pc ∈ io_map, pc.2 ≠ o) →
        WellFormed gc ∧ gc.nodes = g1.nodes ++ g2.nodes.map (rewriteNode io_map)) := by
  refine ⟨?_, ?_, ?_, ?_⟩
  · intro nodes name inputs outputs opset g h
    unfold make_graph at h
    split at h
    · split at h
      · injection h with h
        subst h
        exact wellFormed_of_checks _ (by assumption) (by assumption)
      · exact (Except.noConfusion h)
    · exact (Except.noConfusion h)
  · intro coeffs intercept k opset g h
    unfold convert_sklearn at h
    split at h
    case isFalse => exact (Except.noConfusion h)
    injection h with h
    subst h
    constructor
    · intro pre nd post hdec i hi
      rcases pre with _ | ⟨p, ps⟩
      · simp only [linearRegressorGraph, List.nil_append, List.cons.injEq] at hdec
        obtain ⟨rfl, -⟩ := hdec
        simp only [List.mem_cons, List.not_mem_nil, or_false] at hi
        subst hi
        simp [linearRegressorGraph, make_tensor_value_info, constantOutputs]
      · simp only [linearRegressorGraph, List.cons_append] at hdec
        obtain ⟨-, habs⟩ := List.cons.inj hdec
        exact absurd habs (by simp)
    · intro o ho
      simp only [linearRegressorGraph, List.mem_cons, List.not_mem_nil, or_false] at ho
      subst ho
      refine ⟨{ op := "LinearRegressor", inputs := ["float_input"], outputs := ["variable"],
                coefficients := coeffs, intercept := intercept }, ?_, ?_⟩
      · simp [linearRegressorGraph]
      · simp [make_tensor_value_info]
  · intro g target g' h hwf
    unfold convert_version at h
    split at h
    · injection h with h
      subst h
      rcases g with ⟨n, nds, ins, outs, os⟩
      exact hwf
    · exact (Except.noConfusion h)
  · intro g1 g2 io_map gc hm hwf1 hwf2 hcons hhyg
    unfold merge_models at hm
    split at hm
    case isFalse => exact (Except.noConfusion hm)
    case isTrue hprod =>
    split at hm
    case isFalse => exact (Except.noConfusion hm)
    case isTrue hconsf =>
    split at hm
    case isFalse => exact (Except.noConfusion hm)
    case isTrue hcompat =>
    split at hm
    case isFalse => exact (Except.noConfusion hm)
    case isTrue hver =>
    injection hm with hm
    subst hm
    refine ⟨⟨?_, ?_⟩, rfl⟩
    · intro pre nd post hdec i hi
      simp only at hdec
      rcases append_cons_cases hdec with ⟨post1, h1, rfl⟩ | ⟨pre2, h2, rfl⟩
      · -- nd lies in the upstream part
        have hup := hwf1.1 pre nd post1 h1 i hi
        simp only [List.mem_append, constantOutputs_append] at hup ⊢
        tauto
      · -- nd lies in the rewritten downstream part
        obtain ⟨pre', nd', post'', hg2, hpre2, hnd, hpost⟩ := map_eq_append_cons h2
        subst hnd
        subst hpre2
        subst hpost
        simp only [rewriteNode, List.mem_map] at hi
        obtain ⟨i0, hi0, rfl⟩ := hi
        have hdown := hwf2.1 pre' nd' post'' hg2 i0 hi0
        simp only [List.mem_append] at hdown
        rcases hdown with (hin | hconst) | hpre
        · -- i0 is a declared downstream input: it is mapped to a producer
          simp only [List.mem_map] at hin
          obtain ⟨vi, hvi, hname⟩ := hin
          obtain ⟨pc, hpc, hpc2⟩ := hcons vi hvi
          obtain ⟨pc', hpc', hpc'2, hrw⟩ :=
            rewriteName_consumer_mem io_map i0 pc hpc (hpc2.trans hname)
          rw [hrw]
          rw [List.all_eq_true] at hprod
          have hsome := hprod pc' hpc'
          obtain ⟨vo, hvo, hvoname⟩ := findValueInfo_isSome _ _ (by simpa using hsome)
          obtain ⟨nd1, hnd1, hout1⟩ := hwf1.2 vo hvo
          have hmem : pc'.1 ∈ (g1.nodes ++ pre'.map (rewriteNode io_map)).flatMap (·.outputs) := by
            rw [List.flatMap_append, List.mem_append]
            exact Or.inl (List.mem_flatMap.mpr ⟨nd1, hnd1, hvoname ▸ hout1⟩)
          simp only [List.mem_append] at hmem ⊢
          tauto
        · -- i0 is a Constant output of the downstream graph
          obtain ⟨nd0, hnd0, hi0out⟩ := constantOutputs_mem _ _ hconst
          have hrw : rewriteName io_map i0 = i0 :=
            rewriteName_not_consumer _ _ (fun pc hpc => hhyg nd0 hnd0 i0 hi0out pc hpc)
          rw [hrw]
          have hmem : i0 ∈ constantOutputs (g1.nodes ++ g2.nodes.map (rewriteNode io_map)) := by
            rw [constantOutputs_append, List.mem_append, constantOutputs_map_rewrite]
            exact Or.inr hconst
          simp only [List.mem_append] at hmem ⊢
          tauto
        · -- i0 is produced by an earlier downstream node
          rw [List.mem_flatMap] at hpre
          obtain ⟨nd0, hnd0pre, hi0out⟩ := hpre
          have hnd0 : nd0 ∈ g2.nodes := by
            rw [hg2]
            exact List.mem_append_left _ hnd0pre
          have hrw : rewriteName io_map i0 = i0 :=
            rewriteName_not_consumer _ _ (fun pc hpc => hhyg nd0 hnd0 i0 hi0out pc hpc)
          rw [hrw]
          have hmem : i0 ∈ (g1.nodes ++ pre'.map (rewriteNode io_map)).flatMap (·.outputs) := by
            rw [List.flatMap_append, List.mem_append, flatMap_outputs_map_rewrite]
            exact Or.inr (List.mem_flatMap.mpr ⟨nd0, hnd0pre, hi0out⟩)
          simp only [List.mem_append] at hmem ⊢
          tauto
    · intro o ho
      simp only at ho
      obtain ⟨nd, hnd, hout⟩ := hwf2.2 o ho
      refine ⟨rewriteNode io_map nd, ?_, by simpa [rewriteNode] using hout⟩
      simp only [List.mem_append, List.mem_map]
      exact Or.inr ⟨nd, hnd, rfl⟩

/-- C8 witness: the notebook's four producer invocations, ending in the
well-formed combined graph whose node order is upstream-then-downstream. -/
theorem c8_witness :
    WellFormed apExpanderGraph ∧ WellFormed (lrModelGraph [1, 1, 1, 1] 0) ∧
    WellFormed apExpander21 ∧
    (WellFormed (combinedGraph [1, 1, 1, 1] 0) ∧
      (combinedGraph [1, 1, 1, 1] 0).nodes =
        apExpander21.nodes ++ (lrModelGraph [1, 1, 1, 1] 0).nodes.map (rewriteNode notebookIoMap)) :=
  ⟨c8_producers_wellformed.1 apExpanderNodes "AP_Expander_Graph" [input_value]
      [output_value] 19 apExpanderGraph rfl,
   c8_producers_wellformed.2.1 [1, 1, 1, 1] 0 4 21 (lrModelGraph [1, 1, 1, 1] 0) rfl,
   c8_producers_wellformed.2.2.1 apExpanderGraph 21 apExpander21 rfl
     (wellFormed_of_checks _ rfl rfl),
   c8_producers_wellformed.2.2.2 apExpander21 (lrModelGraph [1, 1, 1, 1] 0)
     notebookIoMap (combinedGraph [1, 1, 1, 1] 0) rfl
     (wellFormed_of_checks _ rfl rfl) (wellFormed_of_checks _ rfl rfl)
     (by decide) (by decide)⟩

/-- Lookup in an appended environment, hit in the front part. -/
theorem lookupEnv_append_some (a b : Env) (n : String) (v : List ℚ)
    (h : lookupEnv a n = some v) : lookupEnv (a ++ b) n = some v := by
  induction a with
  | nil => simp [lookupEnv] at h
  | cons p rest ih =>
      rcases p with ⟨k, w⟩
      simp only [lookupEnv, List.cons_append] at h ⊢
      split at h
      · split
        · exact h
        · exact absurd h (by simp_all)
      · split
        · simp_all
        · exact ih h

/-- Lookup in an appended environment, miss in the front part. -/
theorem lookupEnv_append_none (a b : Env) (n : String)
    (h : lookupEnv a n = none) : lookupEnv (a ++ b) n = lookupEnv b n := by
  induction a with
  | nil => rfl
  | cons p rest ih =>
      rcases p with ⟨k, w⟩
      simp only [lookupEnv, List.cons_append] at h ⊢
      split at h
      · exact absurd h (by simp)
      · split
        · simp_all
        · exact ih h

/-- A successful lookup names a bound key. -/
theorem lookupEnv_some_key (bs : Env) (n : String) (v : List ℚ)
    (h : lookupEnv bs n = some v) : ∃ p ∈ bs, p.1 = n := by
  induction bs with
  | nil => simp [lookupEnv] at h
  | cons p rest ih =>
      rcases p with ⟨k, w⟩
      simp only [lookupEnv] at h
      split at h
      · exact ⟨(k, w), by simp, by simp_all⟩
      · obtain ⟨q, hq, hqn⟩ := ih h
        exact ⟨q, by simp [hq], hqn⟩

/-- Lookup misses when no binding carries the key. -/
theorem lookupEnv_none_of_keys (bs : Env) (n : String)
    (h : ∀ p ∈ bs, p.1 ≠ n) : lookupEnv bs n = none := by
  induction bs with
  | nil => rfl
  | cons p rest ih =>
      rcases p with ⟨k, w⟩
      simp only [lookupEnv]
      have hk : k ≠ n := h (k, w) (by simp)
      rw [if_neg (fun hn => hk hn.symm)]
      exact ih fun q hq => h q (by simp [hq])

/-- A node binds only its own output slots. -/
theorem nodeOutputVals_keys (nd : Node) (e : Env) (bs : Env)
    (h : nodeOutputVals nd e = some bs) : ∀ p ∈ bs, p.1 ∈ nd.outputs := by
  unfold nodeOutputVals at h
  cases hv : nd.inputs.mapM (lookupEnv e) with
  | none => rw [hv] at h; exact absurd h (by simp)
  | some vals =>
      rw [hv] at h
      simp only [Option.bind_eq_bind, Option.some_bind] at h
      cases ha : applyOp nd vals with
      | none => rw [ha] at h; exact absurd h (by simp)
      | some out =>
          rw [ha] at h
          simp only [Option.bind_eq_bind, Option.some_bind] at h
          split at h
          · rename_i o ho
            injection h with h
            subst h
            intro p hp
            simp only [List.mem_singleton] at hp
            subst hp
            simp [ho]
          · exact absurd h (by simp)

/-- `mapM` over a mapped list. -/
theorem mapM_option_map {α β γ : Type} (r : α → β) (f : β → Option γ) (l : List α) :
    (l.map r).mapM f = l.mapM fun a => f (r a) := by
  induction l with
  | nil => rfl
  | cons x xs ih => rw [List.map_cons, List.mapM_cons, List.mapM_cons, ih]

/-- `mapM` respects pointwise equal functions. -/
theorem mapM_option_congr {α β : Type} (f g : α → Option β) (l : List α)
    (h : ∀ a ∈ l, f a = g a) : l.mapM f = l.mapM g := by
  induction l with
  | nil => rfl
  | cons x xs ih =>
      rw [List.mapM_cons, List.mapM_cons, h x (by simp),
        ih fun a ha => h a (by simp [ha])]

/-- Rewiring a node's inputs does not change its result when the rewired
lookups agree. -/
theorem nodeOutputVals_rewrite (m : List (String × String)) (nd : Node)
    (e_c e_d : Env)
    (h : ∀ i ∈ nd.inputs, lookupEnv e_d i = lookupEnv e_c (rewriteName m i)) :
    nodeOutputVals (rewriteNode m nd) e_c = nodeOutputVals nd e_d := by
  unfold nodeOutputVals
  have hmm : (rewriteNode m nd).inputs.mapM (lookupEnv e_c) =
      nd.inputs.mapM (lookupEnv e_d) := by
    simp only [rewriteNode]
    rw [mapM_option_map]
    exact mapM_option_congr _ _ _ fun i hi => (h i hi).symm
  rw [hmm]
  rfl

/-- Evaluating appended node lists is sequential composition. -/
theorem evalNodes_append (l1 l2 : List Node) (e : Env) :
    evalNodes (l1 ++ l2) e = (evalNodes l1 e).bind (evalNodes l2) := by
  induction l1 generalizing e with
  | nil => rfl
  | cons nd rest ih =>
      simp only [List.cons_append, evalNodes]
      cases evalNode nd e with
      | none => rfl
      | some e' => simp [ih]

/-- Evaluation binds no slot outside the initial environment and the nodes'
outputs. -/
theorem evalNodes_lookup_none (nds : List Node) (e e' : Env) (n : String)
    (h : evalNodes nds e = some e') (hn : lookupEnv e n = none)
    (hout : ∀ nd ∈ nds, n ∉ nd.outputs) : lookupEnv e' n = none := by
  induction nds generalizing e with
  | nil =>
      simp only [evalNodes] at h
      injection h with h
      subst h
      exact hn
  | cons nd rest ih =>
      simp only [evalNodes] at h
      cases hev : evalNode nd e with
      | none => rw [hev] at h; exact absurd h (by simp)
      | some e1 =>
          rw [hev] at h
          simp only [Option.bind_eq_bind, Option.some_bind] at h
          refine ih e1 h ?_ fun nd' h' => hout nd' (List.mem_cons_of_mem _ h')
          unfold evalNode at hev
          cases hnv : nodeOutputVals nd e with
          | none => rw [hnv] at hev; exact absurd hev (by simp)
          | some bs =>
              rw [hnv] at hev
              injection hev with hev
              subst hev
              have hk := nodeOutputVals_keys nd e bs hnv
              have hbs : lookupEnv bs n = none :=
                lookupEnv_none_of_keys bs n fun p hp hpn =>
                  hout nd (by simp) (hpn ▸ hk p hp)
              rw [lookupEnv_append_none bs e n hbs]
              exact hn

/-- Rewriting when no mapping pair matches. -/
theorem rewriteName_eq_of_find?_none (m : List (String × String)) (n : String)
    (h : m.find? (fun pc => pc.2 == n) = none) : rewriteName m n = n := by
  unfold rewriteName
  rw [h]

/-- Rewriting through the first matching mapping pair. -/
theorem rewriteName_eq_of_find?_some (m : List (String × String)) (n : String)
    (pc' : String × String) (h : m.find? (fun pc => pc.2 == n) = some pc') :
    rewriteName m n = pc'.1 := by
  unfold rewriteName
  rw [h]

/-- The piped environment binds only consumer names. -/
theorem pipeEnv_lookup_none (io_map : List (String × String)) (e1 env2 : Env)
    (h : pipeEnv io_map e1 = some env2) (n : String)
    (hf : io_map.find? (fun pc => pc.2 == n) = none) :
    lookupEnv env2 n = none := by
  induction io_map generalizing env2 with
  | nil =>
      simp only [pipeEnv, List.mapM_nil] at h
      injection h with h
      subst h
      rfl
  | cons pc0 rest ih =>
      simp only [pipeEnv, List.mapM_cons] at h
      cases hl : lookupEnv e1 pc0.1 with
      | none => rw [hl] at h; exact absurd h (by simp)
      | some v0 =>
          rw [hl] at h
          simp only [Option.map_some', Option.bind_eq_bind, Option.some_bind] at h
          cases hr : rest.mapM fun pc => (lookupEnv e1 pc.1).map fun v => (pc.2, v) with
          | none => rw [hr] at h; exact absurd h (by simp)
          | some env2' =>
              rw [hr] at h
              simp only [Option.bind_eq_bind, Option.some_bind] at h
              injection h with h
              subst h
              rw [List.find?_cons] at hf
              split at hf
              · exact absurd hf (by simp)
              · rename_i hne
                simp only [lookupEnv]
                rw [if_neg ?_]
                · exact ih env2' hr hf
                · intro hn
                  simp [hn] at hne

/-- The piped environment gives a consumer its first mapped producer's
value. -/
theorem pipeEnv_lookup_consumer (io_map : List (String × String)) (e1 env2 : Env)
    (h : pipeEnv io_map e1 = some env2) (n : String) (pc' : String × String)
    (hf : io_map.find? (fun pc => pc.2 == n) = some pc') :
    lookupEnv env2 n = lookupEnv e1 pc'.1 := by
  induction io_map generalizing env2 with
  | nil => simp at hf
  | cons pc0 rest ih =>
      simp only [pipeEnv, List.mapM_cons] at h
      cases hl : lookupEnv e1 pc0.1 with
      | none => rw [hl] at h; exact absurd h (by simp)
      | some v0 =>
          rw [hl] at h
          simp only [Option.map_some', Option.bind_eq_bind, Option.some_bind] at h
          cases hr : rest.mapM fun pc => (lookupEnv e1 pc.1).map fun v => (pc.2, v) with
          | none => rw [hr] at h; exact absurd h (by simp)
          | some env2' =>
              rw [hr] at h
              simp only [Option.bind_eq_bind, Option.some_bind] at h
              injection h with h
              subst h
              rw [List.find?_cons] at hf
              split at hf
              · rename_i heq
                injection hf with hf
                subst hf
                simp only [beq_iff_eq] at heq
                simp only [lookupEnv, if_pos heq.symm]
                exact hl.symm
              · rename_i hne
                simp only [lookupEnv]
                rw [if_neg ?_]
                · exact ih env2' hr hf
                · intro hn
                  simp [hn] at hne

/-- A name is rewritten to itself or to a mapped producer. -/
theorem rewriteName_cases (m : List (String × String)) (n : String) :
    rewriteName m n = n ∨ ∃ pc ∈ m, pc.2 = n ∧ rewriteName m n = pc.1 := by
  unfold rewriteName
  cases hf : m.find? (fun pc => pc.2 == n) with
  | none => exact Or.inl rfl
  | some pc =>
      exact Or.inr ⟨pc, List.mem_of_find?_eq_some hf,
        by simpa using List.find?_some hf, rfl⟩

/-- Simulation: running the rewired downstream nodes in the upstream's final
environment mirrors running the original nodes in the piped environment, as
long as the two environments agree through the rewiring and the downstream
outputs are hygienic with respect to the mapping. -/
theorem evalNodes_rewrite_sim (io_map : List (String × String)) (nds : List Node)
    (S : List String) (e_d e_c : Env)
    (hS : ∀ nd ∈ nds, (∀ i ∈ nd.inputs, i ∈ S) ∧ ∀ o ∈ nd.outputs, o ∈ S)
    (hhyg : ∀ nd ∈ nds, ∀ o ∈ nd.outputs, ∀ pc ∈ io_map, pc.1 ≠ o ∧ pc.2 ≠ o)
    (hR : ∀ n ∈ S, lookupEnv e_d n = lookupEnv e_c (rewriteName io_map n)) :
    (evalNodes nds e_d = none ∧ evalNodes (nds.map (rewriteNode io_map)) e_c = none) ∨
    (∃ e_d2 e_c2, evalNodes nds e_d = some e_d2 ∧
      evalNodes (nds.map (rewriteNode io_map)) e_c = some e_c2 ∧
      ∀ n ∈ S, lookupEnv e_d2 n = lookupEnv e_c2 (rewriteName io_map n)) := by
  induction nds generalizing e_d e_c with
  | nil => exact Or.inr ⟨e_d, e_c, rfl, rfl, hR⟩
  | cons nd rest ih =>
      have hcong : nodeOutputVals (rewriteNode io_map nd) e_c = nodeOutputVals nd e_d :=
        nodeOutputVals_rewrite io_map nd e_c e_d
          (fun i hi => hR i ((hS nd (by simp)).1 i hi))
      cases hnv : nodeOutputVals nd e_d with
      | none =>
          left
          constructor
          · simp [evalNodes, evalNode, hnv]
          · simp [evalNodes, evalNode, hnv, hcong]
      | some bs =>
          have hkeys := nodeOutputVals_keys nd e_d bs hnv
          have hR2 : ∀ n ∈ S, lookupEnv (bs ++ e_d) n =
              lookupEnv (bs ++ e_c) (rewriteName io_map n) := by
            intro n hn
            cases hb : lookupEnv bs n with
            | some v =>
                obtain ⟨p, hp, hpn⟩ := lookupEnv_some_key bs n v hb
                have hnout : n ∈ nd.outputs := hpn ▸ hkeys p hp
                have hrwn : rewriteName io_map n = n :=
                  rewriteName_not_consumer _ _
                    (fun pc hpc => (hhyg nd (by simp) n hnout pc hpc).2)
                rw [hrwn, lookupEnv_append_some bs e_d n v hb,
                  lookupEnv_append_some bs e_c n v hb]
            | none =>
                have hbr : lookupEnv bs (rewriteName io_map n) = none := by
                  rcases rewriteName_cases io_map n with hid | ⟨pc', hpc', hpc2, hrw⟩
                  · rw [hid]; exact hb
                  · rw [hrw]
                    refine lookupEnv_none_of_keys bs _ fun p hp hpn => ?_
                    exact (hhyg nd (by simp) p.1 (hkeys p hp) pc' hpc').1 hpn.symm
                rw [lookupEnv_append_none bs e_d n hb,
                  lookupEnv_append_none bs e_c _ hbr]
                exact hR n hn
          have hstep := ih (bs ++ e_d) (bs ++ e_c)
            (fun nd' h' => hS nd' (by simp [h']))
            (fun nd' h' => hhyg nd' (by simp [h'])) hR2
          rcases hstep with ⟨hd, hc⟩ | ⟨e_d2, e_c2, hd, hc, hR3⟩
          · left
            constructor
            · simp [evalNodes, evalNode, hnv, hd]
            · simp [evalNodes, evalNode, hcong, hnv, hc]
          · right
            refine ⟨e_d2, e_c2, ?_, ?_, hR3⟩
            · simp [evalNodes, evalNode, hnv, hd]
            · simp [evalNodes, evalNode, hcong, hnv, hc]


/-- C2: composition is function composition.  When the composition succeeds,
evaluating the composed graph on `x` equals evaluating the downstream graph on
the environment obtained by piping the upstream run's results through the
mapping — given the hygiene conditions that hold for disjointly-named graphs:
no downstream node output collides with a mapped producer or consumer, no
downstream declared output is a mapped consumer, and downstream slot names
that are not consumers are unbound after the upstream run. -/
theorem c2_composition_eval (g1 g2 : Graph) (io_map : List (String × String))
    (gc : Graph) (x e1 env2 : Env)
    (hm : merge_models g1 g2 io_map = .ok gc)
    (h1 : evalNodes g1.nodes x = some e1)
    (hpipe : pipeEnv io_map e1 = some env2)
    (hhyg : ∀ nd ∈ g2.nodes, ∀ o ∈ nd.outputs, ∀ pc ∈ io_map, pc.1 ≠ o ∧ pc.2 ≠ o)
    (houtc : ∀ vi ∈ g2.outputs, ∀ pc ∈ io_map, pc.2 ≠ vi.name)
    (hfresh : ∀ n ∈ slotNames g2, (∀ pc ∈ io_map, pc.2 ≠ n) → lookupEnv e1 n = none) :
    evalGraph gc x = evalGraph g2 env2 := by
  unfold merge_models at hm
  split at hm
  case isFalse => exact (Except.noConfusion hm)
  split at hm
  case isFalse => exact (Except.noConfusion hm)
  split at hm
  case isFalse => exact (Except.noConfusion hm)
  split at hm
  case isFalse => exact (Except.noConfusion hm)
  injection hm with hm
  subst hm
  have hR : ∀ n ∈ slotNames g2, lookupEnv env2 n = lookupEnv e1 (rewriteName io_map n) := by
    intro n hn
    cases hf : io_map.find? (fun pc => pc.2 == n) with
    | none =>
        rw [rewriteName_eq_of_find?_none _ _ hf,
          pipeEnv_lookup_none io_map e1 env2 hpipe n hf]
        refine (hfresh n hn ?_).symm
        rw [List.find?_eq_none] at hf
        exact fun pc hpc => by simpa using hf pc hpc
    | some pc' =>
        rw [rewriteName_eq_of_find?_some _ _ _ hf]
        exact pipeEnv_lookup_consumer io_map e1 env2 hpipe n pc' hf
  have hS : ∀ nd ∈ g2.nodes, (∀ i ∈ nd.inputs, i ∈ slotNames g2) ∧
      ∀ o ∈ nd.outputs, o ∈ slotNames g2 := by
    intro nd hnd
    constructor
    · intro a ha
      simp only [slotNames, List.mem_append, List.mem_flatMap]
      exact Or.inr ⟨nd, hnd, Or.inl ha⟩
    · intro a ha
      simp only [slotNames, List.mem_append, List.mem_flatMap]
      exact Or.inr ⟨nd, hnd, Or.inr ha⟩
  show (evalNodes (g1.nodes ++ g2.nodes.map (rewriteNode io_map)) x).bind
      (fun e => g2.outputs.mapM fun vi => lookupEnv e vi.name) = evalGraph g2 env2
  rw [evalNodes_append, h1]
  simp only [Option.some_bind]
  unfold evalGraph
  rcases evalNodes_rewrite_sim io_map g2.nodes (slotNames g2) env2 e1 hS hhyg hR with
    ⟨hd, hc⟩ | ⟨e_d2, e_c2, hd, hc, hR2⟩
  · rw [hc, hd]
  · rw [hc, hd]
    simp only [Option.some_bind]
    refine mapM_option_congr _ _ _ fun vi hvi => ?_
    have hnm : vi.name ∈ slotNames g2 := by
      simp only [slotNames, List.mem_append, List.mem_map]
      exact Or.inl (Or.inr ⟨vi, hvi, rfl⟩)
    have hvr := hR2 vi.name hnm
    rw [rewriteName_not_consumer _ _ (fun pc hpc => houtc vi hvi pc hpc)] at hvr
    exact hvr.symm

/-- C2 witness: the notebook pipeline at input 2 — the combined graph equals
the regression run on the piped progression `[2,3,4,5]`. -/
theorem c2_witness :
    evalGraph (combinedGraph [1, 1, 1, 1] 0) [("input", [2])] =
      evalGraph (lrModelGraph [1, 1, 1, 1] 0) [("float_input", [2, 3, 4, 5])] :=
  c2_composition_eval apExpander21 (lrModelGraph [1, 1, 1, 1] 0) notebookIoMap
    (combinedGraph [1, 1, 1, 1] 0) [("input", [2])]
    [("output", [2, 3, 4, 5]), ("input_plus_3", [5]), ("input_plus_2", [4]),
     ("input_plus_1", [3]), ("three", [3]), ("two", [2]), ("one", [1]), ("input", [2])]
    [("float_input", [2, 3, 4, 5])]
    rfl
    (by
      simp [apExpander21, apExpanderGraph, apExpanderNodes, evalNodes,
        evalNode, nodeOutputVals, applyOp, lookupEnv, addVals, List.mapM,
        List.mapM.loop]
      norm_num)
    rfl (by decide) (by decide) (by decide)

/-- C9: for every successful composition, the composed graph's declared
Inputs equal the upstream graph's declared Inputs, its declared Outputs equal
the downstream graph's declared Outputs, and no mapped consumer name remains
exposed as an Input of the result (given that no upstream input is named like
a mapped consumer, as with the notebook's disjointly named graphs). -/
theorem c9_composed_signature (g1 g2 : Graph) (io_map : List (String × String))
    (gc : Graph) (h : merge_models g1 g2 io_map = .ok gc)
    (hdisj : ∀ vi ∈ g1.inputs, ∀ pc ∈ io_map, pc.2 ≠ vi.name) :
    gc.inputs = g1.inputs ∧ gc.outputs = g2.outputs ∧
    ∀ pc ∈ io_map, ∀ vi ∈ gc.inputs, vi.name ≠ pc.2 := by
  unfold merge_models at h
  split at h
  case isFalse => exact (Except.noConfusion h)
  split at h
  case isFalse => exact (Except.noConfusion h)
  split at h
  case isFalse => exact (Except.noConfusion h)
  split at h
  case isFalse => exact (Except.noConfusion h)
  injection h with h
  subst h
  refine ⟨rfl, rfl, ?_⟩
  intro pc hpc vi hvi
  exact fun hn => hdisj vi hvi pc hpc hn.symm

/-- C9 witness: the notebook composition's signature. -/
theorem c9_witness :
    (combinedGraph [1, 1, 1, 1] 0).inputs = apExpander21.inputs ∧
    (combinedGraph [1, 1, 1, 1] 0).outputs = (lrModelGraph [1, 1, 1, 1] 0).outputs ∧
    ∀ pc ∈ notebookIoMap, ∀ vi ∈ (combinedGraph [1, 1, 1, 1] 0).inputs, vi.name ≠ pc.2 :=
  c9_composed_signature apExpander21 (lrModelGraph [1, 1, 1, 1] 0) notebookIoMap
    (combinedGraph [1, 1, 1, 1] 0) rfl (by decide)

/-- Nat tokens round-trip. -/
theorem decNat_enc (n : Nat) (rest : List Nat) :
    decNat (encNat n ++ rest) = some (n, rest) := rfl

/-- Integers round-trip. -/
theorem decInt_enc (i : Int) (rest : List Nat) :
    decInt (encInt i ++ rest) = some (i, rest) := by
  cases i <;> rfl

/-- Rationals round-trip. -/
theorem decRat_enc (q : ℚ) (rest : List Nat) :
    decRat (encRat q ++ rest) = some (q, rest) := by
  unfold decRat encRat
  rw [List.append_assoc, decInt_enc]
  simp only [Option.bind_eq_bind, Option.some_bind]
  show (decNat (encNat q.den ++ rest)).bind _ = _
  rw [decNat_enc]
  simp only [Option.bind_eq_bind, Option.some_bind, Rat.num_div_den]
  rfl

/-- Characters round-trip. -/
theorem decChar_enc (c : Char) (rest : List Nat) :
    decChar (encChar c ++ rest) = some (c, rest) := by
  show some (Char.ofNat c.toNat, rest) = some (c, rest)
  rw [Char.ofNat_toNat]

/-- Counted sequences round-trip elementwise. -/
theorem decListCount_enc {α : Type} (f : α → List Nat)
    (df : List Nat → Option (α × List Nat))
    (hf : ∀ a rest, df (f a ++ rest) = some (a, rest)) (l : List α)
    (rest : List Nat) :
    decListCount df l.length ((l.map f).flatten ++ rest) = some (l, rest) := by
  induction l with
  | nil => rfl
  | cons a as ih =>
      simp only [List.length_cons, List.map_cons, List.flatten_cons, decListCount]
      rw [List.append_assoc, hf]
      simp only [Option.bind_eq_bind, Option.some_bind]
      rw [ih]
      rfl

/-- Length-prefixed lists round-trip. -/
theorem decListWith_enc {α : Type} (f : α → List Nat)
    (df : List Nat → Option (α × List Nat))
    (hf : ∀ a rest, df (f a ++ rest) = some (a, rest)) (l : List α)
    (rest : List Nat) :
    decListWith df (encListWith f l ++ rest) = some (l, rest) := by
  unfold decListWith encListWith
  simp only [List.cons_append, decNat, Option.bind_eq_bind, Option.some_bind]
  exact decListCount_enc f df hf l rest

/-- Strings round-trip. -/
theorem decString_enc (s : String) (rest : List Nat) :
    decString (encString s ++ rest) = some (s, rest) := by
  unfold decString encString
  rw [decListWith_enc encChar decChar decChar_enc s.data rest]
  rfl

/-- Optional dimensions round-trip. -/
theorem decOptNat_enc (o : Option Nat) (rest : List Nat) :
    decOptNat (encOptNat o ++ rest) = some (o, rest) := by
  cases o <;> rfl

/-- Element types round-trip. -/
theorem decElemType_enc (t : ElemType) (rest : List Nat) :
    decElemType (encElemType t ++ rest) = some (t, rest) := by
  cases t <;> rfl

/-- Value signatures round-trip. -/
theorem decValueInfo_enc (vi : ValueInfo) (rest : List Nat) :
    decValueInfo (encValueInfo vi ++ rest) = some (vi, rest) := by
  rcases vi with ⟨nm, et, sh⟩
  unfold decValueInfo encValueInfo
  simp only [List.append_assoc]
  rw [decString_enc]
  simp only [Option.bind_eq_bind, Option.some_bind]
  rw [decElemType_enc]
  simp only [Option.bind_eq_bind, Option.some_bind]
  rw [decListWith_enc encOptNat decOptNat decOptNat_enc]
  rfl

/-- Nodes round-trip. -/
theorem decNode_enc (nd : Node) (rest : List Nat) :
    decNode (encNode nd ++ rest) = some (nd, rest) := by
  rcases nd with ⟨op, ins, outs, cv, ax, cf, ic⟩
  unfold decNode encNode
  simp only [List.append_assoc]
  rw [decString_enc]
  simp only [Option.bind_eq_bind, Option.some_bind]
  rw [decListWith_enc encString decString decString_enc]
  simp only [Option.bind_eq_bind, Option.some_bind]
  rw [decListWith_enc encString decString decString_enc]
  simp only [Option.bind_eq_bind, Option.some_bind]
  rw [decListWith_enc encRat decRat decRat_enc]
  simp only [Option.bind_eq_bind, Option.some_bind]
  rw [decInt_enc]
  simp only [Option.bind_eq_bind, Option.some_bind]
  rw [decListWith_enc encRat decRat decRat_enc]
  simp only [Option.bind_eq_bind, Option.some_bind]
  rw [decRat_enc]
  rfl

/-- Graphs round-trip with any remaining stream. -/
theorem decGraph_enc (g : Graph) (rest : List Nat) :
    decGraph (encGraph g ++ rest) = some (g, rest) := by
  rcases g with ⟨nm, nds, ins, outs, os⟩
  unfold decGraph encGraph
  simp only [List.append_assoc]
  rw [decString_enc]
  simp only [Option.bind_eq_bind, Option.some_bind]
  rw [decListWith_enc encNode decNode decNode_enc]
  simp only [Option.bind_eq_bind, Option.some_bind]
  rw [decListWith_enc encValueInfo decValueInfo decValueInfo_enc]
  simp only [Option.bind_eq_bind, Option.some_bind]
  rw [decListWith_enc encValueInfo decValueInfo decValueInfo_enc]
  simp only [Option.bind_eq_bind, Option.some_bind]
  rw [decNat_enc]
  rfl

/-- C4: persisting a graph and loading it back yields a graph identical in
every field — Nodes, declared Inputs, declared Outputs, and the operator-set
version tag (the save/load round-trip law). -/
theorem c4_save_load_roundtrip (g : Graph) : onnx_load (onnx_save g) = some g := by
  unfold onnx_load onnx_save
  rw [← List.append_nil (encGraph g), decGraph_enc]

end OnnxPipeline
